import Mathlib

/-!
Verification development for the incremental LilyPond music-source reader of
`frescobaldi_app/ly/music/items.py`.

The Reader consumes a lazy sequence of classified tokens produced by an
external lexer (`ly.lex`) and yields semantic `Item` nodes.  The lexer and the
pitch tables (`ly.lex`, `ly.pitch`) are external collaborators that are not
part of the sources verified here; they are modelled from the specification
(each such definition says so in its doc comment).  Everything else is a
direct translation of the Python code in `items.py`.

The Python generator `Reader.read` does not terminate on every input (an
unresolvable Note token leaves the loop variable unchanged inside the
`while isinstance(t, MusicItem)` loop, so the generator spins forever without
yielding).  The embedding therefore takes a fuel argument and reports how the
run ended: `done` for a normal end of the token sequence, `hung` for the state
from which the Python loop provably never yields nor returns again, `fuelOut`
when the fuel was exhausted first.
-/

/-- Classification tag of a lexer token.  Modelled from the spec: the token
classes of the external `ly.lex` / `ly.lex.lilypond` modules, flattened to the
closed tag set the Reader dispatches on (music items are note, rest, skip,
spacer and the chord-repeat marker q). -/
inductive TKind where
  | note
  | rest
  | skip
  | spacer
  | q
  | octave
  | accidental
  | octaveCheck
  | duration
  | space
  | schemeStart
  | blockCommentStart
  | lineComment
  | stringStart
  | stringEnd
  | character
  | other
deriving DecidableEq, Repr

/-- A lexer token: its classification, its text, and the change it causes to
the token source's reported nesting depth when it is consumed (the Python
source exposes this as `source.state.depth()`; the Reader only ever compares
depths). -/
structure Tok where
  kind : TKind
  text : String
  ddepth : Int
deriving DecidableEq, Repr

/-- The token source: the tokens still to be produced and the current reported
nesting depth of the lexer state. -/
structure Source where
  toks : List Tok
  depth : Int
deriving DecidableEq, Repr

/-- The `isinstance(t, ly.lex.lilypond.MusicItem)` test.  Modelled from the
spec: a music item is a note, rest, skip, spacer or chord-repeat marker. -/
def isMusicItem (k : TKind) : Bool :=
  match k with
  | TKind.note => true
  | TKind.rest => true
  | TKind.skip => true
  | TKind.spacer => true
  | TKind.q => true
  | _ => false

/-- Modelled from the spec: the per-language pitch table `ly.pitch.pitchInfo`
(module `ly.pitch` is not among the sources verified here).  Maps a language
name to a table from note-name spelling to (diatonic step, alteration). -/
def pitchInfo : List (String × List (String × (Nat × Int))) :=
  [("nederlands",
    [("c", (0, 0)), ("d", (1, 0)), ("e", (2, 0)), ("f", (3, 0)),
     ("g", (4, 0)), ("a", (5, 0)), ("b", (6, 0)),
     ("cis", (0, 1)), ("dis", (1, 1)), ("fis", (3, 1)), ("gis", (4, 1)),
     ("ces", (0, -1)), ("des", (1, -1)), ("es", (2, -1)), ("bes", (6, -1))]),
   ("english",
    [("c", (0, 0)), ("d", (1, 0)), ("e", (2, 0)), ("f", (3, 0)),
     ("g", (4, 0)), ("a", (5, 0)), ("b", (6, 0)),
     ("cs", (0, 1)), ("df", (1, -1))])]

/-- Modelled from the spec: `ly.pitch.pitchReader(language)(token)` resolves a
note-name spelling in the given language, returning the (step, alteration)
pair, or nothing when the spelling is not a valid note name in that language
(never an exception). -/
def pitchReader (lang : String) (text : String) : Option (Nat × Int) :=
  match pitchInfo.lookup lang with
  | some tbl => tbl.lookup text
  | none => none

/-- The apostrophe character, an octave-raise mark. -/
def raiseMark : Char := Char.ofNat 39

/-- The comma character, an octave-lower mark. -/
def lowerMark : Char := Char.ofNat 44

/-- The backslash character, the escape marker inside string literals. -/
def escChar : Char := Char.ofNat 92

/-- Modelled from the spec: `ly.pitch.octaveToNum` decodes an octave-mark
token: each raise mark raises the octave by one, each lower mark lowers it by
one. -/
def octaveToNum (text : String) : Int :=
  (text.toList.count raiseMark : Int) - (text.toList.count lowerMark : Int)

/-- The accidental field of a pitch.  `Reader.read` first fills it with the
alteration number from the pitch table, then overwrites it with the raw
Accidental token when one follows the note (`item.accidental_token =
p.accidental = t`). -/
inductive AccVal where
  | num (a : Int)
  | tok (t : Tok)
deriving DecidableEq, Repr

/-- Modelled from the spec: `ly.pitch.Pitch` — diatonic step, accidental,
octave number, and an optional octave-check value. -/
structure Pitch where
  note : Nat
  accidental : AccVal
  octave : Int := 0
  octavecheck : Option Int := none
deriving DecidableEq, Repr

/-- The semantic items of `items.py`.  One constructor per concrete class of
the Python hierarchy (`Token`, `Container`, `Duration`, `Chord`, `Note`,
`Skip`, `Rest`, `Q`, `Music`, `SchemeValue`, `StringValue`, `Comment`).
Durable items carry their duration as `Option (List Tok)` mirroring the
class default `duration = None` that `read` later fills with a `Duration`
whose `tokens` list it grows. -/
inductive Item where
  | tokenItem (token : Tok)
  | containerItem
  | durationItem (tokens : List Tok)
  | chord (token : Tok) (duration : Option (List Tok))
  | note (token : Tok) (pitch : Pitch) (octaveTok accidentalTok octavecheckTok : Option Tok)
      (duration : Option (List Tok))
  | skip (token : Tok) (duration : Option (List Tok))
  | rest (token : Tok) (duration : Option (List Tok))
  | q (token : Tok) (duration : Option (List Tok))
  | music (simultaneous : Bool)
  | schemeValue (token : Tok) (tokens : List Tok)
  | stringValue (token : Tok) (tokens : List Tok) (value : String)
  | comment (token : Tok) (tokens : List Tok)
deriving DecidableEq, Repr

/-- Loop body of `Reader.consume`: yield tokens from the source, and stop as
soon as the reported depth has dropped below the entry depth (the token that
causes the drop is still yielded).  When the source is exhausted first, the
iteration simply ends. -/
def consumeGo (entry : Int) : List Tok → Int → List Tok × Source
  | [], d => ([], ⟨[], d⟩)
  | t :: ts, d =>
    let d' := d + t.ddepth
    if d' < entry then ([t], ⟨ts, d'⟩)
    else
      let r := consumeGo entry ts d'
      (t :: r.1, r.2)

/-- `Reader.consume`: records the depth at entry and yields tokens until the
source's depth drops below it. -/
def consume (s : Source) : List Tok × Source :=
  consumeGo s.depth s.toks s.depth

/-- Result of the pitch-collection loop inside `Reader.read`: the updated
pitch, the recorded octave / accidental / octave-check tokens, the Python
loop variable `t` after the loop (the last token pulled, if any), and the
remaining source. -/
structure PitchScan where
  pitch : Pitch
  octaveTok : Option Tok
  accidentalTok : Option Tok
  octavecheckTok : Option Tok
  pending : Option Tok
  src : Source
deriving DecidableEq, Repr

/-- The pitch-collection loop of `Reader.read` (`for t in self.source` after a
resolved Note): octave marks set the pitch's octave, accidental marks set the
accidental, an octave-check sets the check value and breaks, whitespace is
skipped, and any other token breaks the loop.  `pending` tracks the Python
loop variable `t` (it keeps the last pulled token when the source runs out). -/
def pitchLoopGo (p : Pitch) (oct acc chk pending : Option Tok) :
    List Tok → Int → PitchScan
  | [], d => ⟨p, oct, acc, chk, pending, ⟨[], d⟩⟩
  | t :: ts, d =>
    let d' := d + t.ddepth
    if t.kind = TKind.octave then
      pitchLoopGo { p with octave := octaveToNum t.text } (some t) acc chk (some t) ts d'
    else if t.kind = TKind.accidental then
      pitchLoopGo { p with accidental := AccVal.tok t } oct (some t) chk (some t) ts d'
    else if t.kind = TKind.octaveCheck then
      ⟨{ p with octavecheck := some (octaveToNum t.text) }, oct, acc, some t, some t, ⟨ts, d'⟩⟩
    else if t.kind = TKind.space then
      pitchLoopGo p oct acc chk (some t) ts d'
    else
      ⟨p, oct, acc, chk, some t, ⟨ts, d'⟩⟩

/-- Result of duration collection: the collected duration tokens, the Python
loop variable `t` after the block, and the remaining source. -/
structure DurScan where
  toks : List Tok
  pending : Option Tok
  src : Source
deriving DecidableEq, Repr

/-- The duration-collection loop of `Reader.read`: append duration tokens,
skip whitespace, stop at anything else.  `pending` tracks the Python loop
variable `t`. -/
def durLoopGo (acc : List Tok) (pending : Option Tok) : List Tok → Int → DurScan
  | [], d => ⟨acc, pending, ⟨[], d⟩⟩
  | t :: ts, d =>
    let d' := d + t.ddepth
    if t.kind = TKind.duration then durLoopGo (acc ++ [t]) (some t) ts d'
    else if t.kind = TKind.space then durLoopGo acc (some t) ts d'
    else ⟨acc, some t, ⟨ts, d'⟩⟩

/-- The `wait for a duration` block of `Reader.read`: when the pending token
is absent the loop is entered with an empty list; when it is a duration token
it is appended first and the loop entered; otherwise the duration stays empty
and the pending token is left for re-dispatch. -/
def durationOf (pending : Option Tok) (s : Source) : DurScan :=
  match pending with
  | none => durLoopGo [] none s.toks s.depth
  | some t =>
    if t.kind = TKind.duration then durLoopGo [t] (some t) s.toks s.depth
    else ⟨[], some t, s⟩

/-- One pass of the body of the `while isinstance(t, MusicItem)` loop of
`Reader.read`, for a music-item token `t`.  Returns the completed Durable
item, the pending token for the next dispatch, and the remaining source —
or nothing when the note's spelling does not resolve in the current
language: in that case the Python loop re-tests the very same token forever
(`item` stays None and `t` is unchanged), so the generator never yields nor
returns again. -/
def musicItemStep (lang : String) (t : Tok) (s : Source) :
    Option (Item × Option Tok × Source) :=
  if t.kind = TKind.note then
    match pitchReader lang t.text with
    | none => none
    | some r =>
      let ps := pitchLoopGo ⟨r.1, AccVal.num r.2, 0, none⟩ none none none none s.toks s.depth
      let ds := durationOf ps.pending ps.src
      some (Item.note t ps.pitch ps.octaveTok ps.accidentalTok ps.octavecheckTok
              (some ds.toks), ds.pending, ds.src)
  else
    let ds := durationOf none s
    let item :=
      if t.kind = TKind.rest then Item.rest t (some ds.toks)
      else if t.kind = TKind.skip ∨ t.kind = TKind.spacer then Item.skip t (some ds.toks)
      else Item.q t (some ds.toks)
    some (item, ds.pending, ds.src)

/-- How a run of `Reader.read` ended: `done` is the normal end of the token
sequence, `hung` the state from which the Python generator loops forever
without yielding, `fuelOut` exhaustion of the embedding's fuel. -/
inductive ReadEnd where
  | done
  | hung
  | fuelOut
deriving DecidableEq, Repr

/-- The main loop of `Reader.read`.  A `pending` token plays the role of the
Python loop variable `t` when it still has to be dispatched; `none` means the
next token is pulled from the source (the head of the outer `for t in
self.source` loop).  A pending music item runs the `while` body; any other
pending token runs the `elif` dispatch chain (SchemeStart and
BlockCommentStart consume their depth-tracked run, a Comment keeps only its
own token, StringStart consumes its run and computes the resolved value,
anything else is skipped). -/
def readGo (lang : String) : Nat → Option Tok → Source → List Item × ReadEnd
  | 0, _, _ => ([], ReadEnd.fuelOut)
  | Nat.succ fuel, none, s =>
    match s.toks with
    | [] => ([], ReadEnd.done)
    | t :: ts => readGo lang fuel (some t) ⟨ts, s.depth + t.ddepth⟩
  | Nat.succ fuel, some t, s =>
    if isMusicItem t.kind then
      match musicItemStep lang t s with
      | none => ([], ReadEnd.hung)
      | some (item, pending, s') =>
        let r := readGo lang fuel pending s'
        (item :: r.1, r.2)
    else if t.kind = TKind.schemeStart then
      let c := consume s
      let r := readGo lang fuel none c.2
      (Item.schemeValue t c.1 :: r.1, r.2)
    else if t.kind = TKind.blockCommentStart then
      let c := consume s
      let r := readGo lang fuel none c.2
      (Item.comment t c.1 :: r.1, r.2)
    else if t.kind = TKind.lineComment then
      let r := readGo lang fuel none s
      (Item.comment t [] :: r.1, r.2)
    else if t.kind = TKind.stringStart then
      let c := consume s
      let r := readGo lang fuel none c.2
      (Item.stringValue t c.1 (String.join (c.1.dropLast.map
        (fun u => if u.kind = TKind.character ∧ u.text.data.head? = some escChar
                  then String.mk (u.text.data.drop 1) else u.text))) :: r.1, r.2)
    else
      readGo lang fuel none s

/-- The Reader: a token source and the current pitch-name language (initially
`nederlands`). -/
structure Reader where
  source : Source
  language : String := "nederlands"
deriving DecidableEq, Repr

/-- `Reader.set_language`: sets the language and returns `True` when the name
is a key of the pitch table; otherwise the language is unchanged and the
Python function falls off its end, returning `None` (modelled as `none`). -/
def Reader.set_language (r : Reader) (lang : String) : Reader × Option Bool :=
  if (pitchInfo.lookup lang).isSome then ({ r with language := lang }, some true)
  else (r, none)

/-- `Reader.read` on the Reader's own source (the `source=None` call). -/
def Reader.read (r : Reader) (fuel : Nat) : List Item × ReadEnd :=
  readGo r.language fuel none r.source

/-- All tokens an item records, in source order: its primary token, then for a
Note the recorded octave, accidental and octave-check tokens and the duration
tokens, for other Durables the duration tokens, and for composite items the
`tokens` run. -/
def Item.recordedToks : Item → List Tok
  | Item.tokenItem t => [t]
  | Item.containerItem => []
  | Item.durationItem ts => ts
  | Item.chord t d => t :: d.getD []
  | Item.note t _ o a c d =>
      t :: (o.toList ++ a.toList ++ c.toList ++ d.getD [])
  | Item.skip t d => t :: d.getD []
  | Item.rest t d => t :: d.getD []
  | Item.q t d => t :: d.getD []
  | Item.music _ => []
  | Item.schemeValue t ts => t :: ts
  | Item.stringValue t ts _ => t :: ts
  | Item.comment t ts => t :: ts

/-- A Durable item's duration is present (not the class default `None`) and
its token list holds duration-class tokens only; non-Durable items satisfy
this trivially. -/
def DurationOk : Item → Prop
  | Item.note _ _ _ _ _ d => ∃ l, d = some l ∧ ∀ t ∈ l, t.kind = TKind.duration
  | Item.rest _ d => ∃ l, d = some l ∧ ∀ t ∈ l, t.kind = TKind.duration
  | Item.skip _ d => ∃ l, d = some l ∧ ∀ t ∈ l, t.kind = TKind.duration
  | Item.q _ d => ∃ l, d = some l ∧ ∀ t ∈ l, t.kind = TKind.duration
  | _ => True

/-- The item kinds `Reader.read` can yield: Note, Rest, Skip, Q, SchemeValue,
StringValue and Comment — never a bare Token, Chord, Music, Container or
Duration item. -/
def isReadKind : Item → Bool
  | Item.note _ _ _ _ _ _ => true
  | Item.rest _ _ => true
  | Item.skip _ _ => true
  | Item.q _ _ => true
  | Item.schemeValue _ _ => true
  | Item.stringValue _ _ _ => true
  | Item.comment _ _ => true
  | _ => false

/-- The depths the source reports after each successive token of the list,
starting from depth `d`. -/
def depthsFrom (d : Int) : List Tok → List Int
  | [] => []
  | t :: ts => (d + t.ddepth) :: depthsFrom (d + t.ddepth) ts

/-- A note-name token (music item). -/
def noteTok (s : String) : Tok := ⟨TKind.note, s, 0⟩

/-- An octave-mark token. -/
def octTok (s : String) : Tok := ⟨TKind.octave, s, 0⟩

/-- A duration token. -/
def durTok (s : String) : Tok := ⟨TKind.duration, s, 0⟩

/-- An octave-check token. -/
def chkTok (s : String) : Tok := ⟨TKind.octaveCheck, s, 0⟩

/-- An accidental token. -/
def accTok (s : String) : Tok := ⟨TKind.accidental, s, 0⟩

/-- One octave-raise mark as a string. -/
def upMark : String := String.mk [raiseMark]

/-- Two octave-raise marks as a string (one Octave token of the lexer covers
the whole run of marks). -/
def upMark2 : String := String.mk [raiseMark, raiseMark]

/-- An octave-lower mark as a string. -/
def downMark : String := String.mk [lowerMark]

theorem consumeGo_ne_nil (entry : Int) (t : Tok) (ts : List Tok) (d : Int) :
    (consumeGo entry (t :: ts) d).1 ≠ [] := by
  simp only [consumeGo]
  split <;> simp

theorem consumeGo_no_drop (entry : Int) :
    ∀ (l : List Tok) (d : Int), (∀ x ∈ depthsFrom d l, entry ≤ x) →
      (consumeGo entry l d).1 = l ∧ (consumeGo entry l d).2.toks = [] := by
  intro l
  induction l with
  | nil => intro d _; simp [consumeGo]
  | cons t ts ih =>
    intro d h
    have h0 : entry ≤ d + t.ddepth := h _ (by simp [depthsFrom])
    have hrec := ih (d + t.ddepth) (fun x hx => h x (by simp [depthsFrom, hx]))
    simp only [consumeGo, if_neg (not_lt.mpr h0)]
    simp [hrec.1, hrec.2]

theorem consumeGo_zero_run (entry : Int) :
    ∀ (run : List Tok) (close : Tok) (rest : List Tok) (d : Int),
      entry ≤ d → (∀ c ∈ run, c.ddepth = 0) → d + close.ddepth < entry →
      consumeGo entry (run ++ close :: rest) d = (run ++ [close], ⟨rest, d + close.ddepth⟩) := by
  intro run
  induction run with
  | nil =>
    intro close rest d _ _ hc
    simp only [List.nil_append, consumeGo, if_pos hc]
  | cons t ts ih =>
    intro close rest d hd hrun hc
    have ht : t.ddepth = 0 := hrun t (by simp)
    have hd' : d + t.ddepth = d := by rw [ht]; ring
    simp only [List.cons_append, consumeGo, List.append_eq, hd']
    rw [if_neg (not_lt.mpr hd), ih close rest d hd (fun c hc2 => hrun c (by simp [hc2])) hc]

theorem depthsFrom_cons (d : Int) (t : Tok) (ts : List Tok) :
    depthsFrom d (t :: ts) = (d + t.ddepth) :: depthsFrom (d + t.ddepth) ts := rfl

theorem consumeGo_spec (entry : Int) :
    ∀ (l : List Tok) (d : Int),
      (consumeGo entry l d).1 ++ (consumeGo entry l d).2.toks = l
      ∧ (∀ x ∈ (depthsFrom d (consumeGo entry l d).1).dropLast, entry ≤ x)
      ∧ ((consumeGo entry l d).2.toks ≠ [] →
          ∃ dl, (depthsFrom d (consumeGo entry l d).1).getLast? = some dl ∧ dl < entry) := by
  intro l
  induction l with
  | nil => intro d; simp [consumeGo, depthsFrom]
  | cons t ts ih =>
    intro d
    by_cases hlt : d + t.ddepth < entry
    · simp only [consumeGo, if_pos hlt]
      refine ⟨rfl, ?_, ?_⟩
      · simp [depthsFrom]
      · intro _
        exact ⟨d + t.ddepth, by simp [depthsFrom], hlt⟩
    · obtain ⟨ih1, ih2, ih3⟩ := ih (d + t.ddepth)
      simp only [consumeGo, if_neg hlt]
      refine ⟨by simpa using congrArg (t :: ·) ih1, ?_, ?_⟩
      · rcases hr : (consumeGo entry ts (d + t.ddepth)).1 with _ | ⟨y, ys⟩
        · simp [depthsFrom]
        · rw [hr] at ih2
          rw [depthsFrom_cons, depthsFrom_cons, List.dropLast_cons₂]
          rw [depthsFrom_cons] at ih2
          intro x hx
          rcases List.mem_cons.mp hx with hx | hx
          · exact hx ▸ not_lt.mp hlt
          · exact ih2 x hx
      · intro hne
        obtain ⟨dl, hdl, hdl2⟩ := ih3 hne
        rcases hr : (consumeGo entry ts (d + t.ddepth)).1 with _ | ⟨y, ys⟩
        · rw [hr] at hdl
          simp [depthsFrom] at hdl
        · rw [hr, depthsFrom_cons] at hdl
          refine ⟨dl, ?_, hdl2⟩
          rw [depthsFrom_cons, depthsFrom_cons, List.getLast?_cons_cons]
          exact hdl

theorem durLoopGo_all (P : Tok → Prop) (hP : ∀ t, t.kind = TKind.duration → P t) :
    ∀ (l : List Tok) (acc : List Tok) (pending : Option Tok) (d : Int),
      (∀ t ∈ acc, P t) → ∀ t ∈ (durLoopGo acc pending l d).toks, P t := by
  intro l
  induction l with
  | nil => intro acc pending d hacc; simpa [durLoopGo] using hacc
  | cons t ts ih =>
    intro acc pending d hacc
    simp only [durLoopGo]
    by_cases hdur : t.kind = TKind.duration
    · rw [if_pos hdur]
      refine ih _ _ _ ?_
      intro u hu
      rcases List.mem_append.mp hu with hu | hu
      · exact hacc u hu
      · simpa [List.mem_singleton.mp hu] using hP t hdur
    · rw [if_neg hdur]
      by_cases hsp : t.kind = TKind.space
      · rw [if_pos hsp]
        exact ih _ _ _ hacc
      · rw [if_neg hsp]
        simpa using hacc

theorem durationOf_all (pending : Option Tok) (s : Source) :
    ∀ t ∈ (durationOf pending s).toks, t.kind = TKind.duration := by
  match pending with
  | none => exact durLoopGo_all _ (fun _ h => h) _ _ _ _ (by simp)
  | some t =>
    simp only [durationOf]
    by_cases hdur : t.kind = TKind.duration
    · rw [if_pos hdur]
      exact durLoopGo_all _ (fun _ h => h) _ _ _ _ (by simpa using hdur)
    · rw [if_neg hdur]
      simp

theorem musicItemStep_item (lang : String) (t : Tok) (s : Source)
    (item : Item) (pending : Option Tok) (s' : Source)
    (h : musicItemStep lang t s = some (item, pending, s')) :
    DurationOk item ∧ isReadKind item = true := by
  unfold musicItemStep at h
  by_cases hn : t.kind = TKind.note
  · rw [if_pos hn] at h
    rcases hr : pitchReader lang t.text with _ | r
    · rw [hr] at h; exact absurd h (by simp)
    · rw [hr] at h
      simp only [Option.some.injEq, Prod.mk.injEq] at h
      obtain ⟨h1, _, _⟩ := h
      subst h1
      exact ⟨⟨_, rfl, durationOf_all _ _⟩, rfl⟩
  · rw [if_neg hn] at h
    simp only [Option.some.injEq, Prod.mk.injEq] at h
    obtain ⟨h1, _, _⟩ := h
    subst h1
    by_cases h2 : t.kind = TKind.rest
    · rw [if_pos h2]
      exact ⟨⟨_, rfl, durationOf_all _ _⟩, rfl⟩
    · rw [if_neg h2]
      by_cases h3 : t.kind = TKind.skip ∨ t.kind = TKind.spacer
      · rw [if_pos h3]
        exact ⟨⟨_, rfl, durationOf_all _ _⟩, rfl⟩
      · rw [if_neg h3]
        exact ⟨⟨_, rfl, durationOf_all _ _⟩, rfl⟩

/-- C1: the claim says that a Note token whose spelling does not resolve in
the current language surfaces as a bare unrecognized Token item and that
reading continues with the subsequent tokens.  The code does neither: `read`
never constructs a `Token` item, and when `pitchReader` fails the loop
variable is left unchanged, so the `while isinstance(t, MusicItem)` loop
re-tests the same token forever.  At the one-token stream `zz` (not a Dutch
note name) the run, whatever fuel it is given, yields no item and ends in the
hung state — never in the normal `done` state the claim would require. -/
theorem read_unresolved_note_hangs (f : Nat) :
    readGo "nederlands" (f + 2) none ⟨[noteTok "zz"], 0⟩ = ([], ReadEnd.hung) := rfl

/-- C2 counterexample: exhaustion of the token source inside a depth-tracked
construct is not reported distinguishably.  Reading an unterminated Scheme
expression (`# ( x` with the source ending at depth 2, above the entry depth
1) produces a SchemeValue holding the partial run and terminates with
`ReadEnd.done` — the very same terminal outcome as the properly closed
variant of the stream, so the two ends are indistinguishable. -/
theorem read_unterminated_equals_clean_end :
    readGo "nederlands" 9 none
        ⟨[⟨TKind.schemeStart, "#", 1⟩, ⟨TKind.other, "(", 1⟩, ⟨TKind.other, "x", 0⟩], 0⟩
      = ([Item.schemeValue ⟨TKind.schemeStart, "#", 1⟩
            [⟨TKind.other, "(", 1⟩, ⟨TKind.other, "x", 0⟩]], ReadEnd.done)
    ∧ (readGo "nederlands" 9 none
        ⟨[⟨TKind.schemeStart, "#", 1⟩, ⟨TKind.other, "(", 1⟩, ⟨TKind.other, "x", 0⟩,
          ⟨TKind.other, ")", -2⟩], 0⟩).2
      = ReadEnd.done := by decide

/-- C2 amended: when the token source is exhausted while the reported depth
never dropped below the entry depth, `consume` simply ends after yielding all
remaining tokens, exactly like a normal end of sequence — no distinguishable
unterminated outcome exists. -/
theorem consume_exhaustion_silent (s : Source)
    (h : ∀ x ∈ depthsFrom s.depth s.toks, s.depth ≤ x) :
    (consume s).1 = s.toks ∧ (consume s).2.toks = [] :=
  consumeGo_no_drop s.depth s.toks s.depth h

/-- Witness for `consume_exhaustion_silent` at an unterminated two-token
source. -/
theorem consume_exhaustion_silent_witness :
    (consume ⟨[⟨TKind.other, "(", 1⟩, ⟨TKind.other, "x", 0⟩], 1⟩).1
        = [⟨TKind.other, "(", 1⟩, ⟨TKind.other, "x", 0⟩]
    ∧ (consume ⟨[⟨TKind.other, "(", 1⟩, ⟨TKind.other, "x", 0⟩], 1⟩).2.toks = [] :=
  consume_exhaustion_silent ⟨[⟨TKind.other, "(", 1⟩, ⟨TKind.other, "x", 0⟩], 1⟩ (by decide)

/-- C3: `set_language` with a name outside the pitch table returns the
failure value (`None`) and leaves the Reader — hence the result of resolving
any note name — unchanged; with a name inside the table it sets the language
and returns `True`. -/
theorem set_language_spec (r : Reader) (lang lang2 name : String)
    (hfail : pitchInfo.lookup lang = none)
    (hok : (pitchInfo.lookup lang2).isSome = true) :
    r.set_language lang = (r, none)
    ∧ pitchReader ((r.set_language lang).1.language) name = pitchReader r.language name
    ∧ (r.set_language lang2).1.language = lang2
    ∧ (r.set_language lang2).2 = some true := by
  refine ⟨?_, ?_, ?_, ?_⟩ <;> simp [Reader.set_language, hfail, hok]

/-- Witness for `set_language_spec`: `nonexistent` fails and leaves `c`
resolving as before, `english` succeeds. -/
theorem set_language_spec_witness :
    Reader.set_language ⟨⟨[], 0⟩, "nederlands"⟩ "nonexistent" = (⟨⟨[], 0⟩, "nederlands"⟩, none)
    ∧ pitchReader ((Reader.set_language ⟨⟨[], 0⟩, "nederlands"⟩ "nonexistent").1.language) "c"
        = pitchReader "nederlands" "c"
    ∧ (Reader.set_language ⟨⟨[], 0⟩, "nederlands"⟩ "english").1.language = "english"
    ∧ (Reader.set_language ⟨⟨[], 0⟩, "nederlands"⟩ "english").2 = some true :=
  set_language_spec ⟨⟨[], 0⟩, "nederlands"⟩ "nonexistent" "english" "c" (by decide) (by decide)

/-- C4: depth-tracked consumption.  Generally, `consume` returns a prefix of
the source: the depth reported strictly before its last yielded token never
drops below the entry depth (it stops as soon as the drop happens), and
whenever tokens remain unconsumed the depth after the last yielded token has
dropped below the entry depth.  Concretely, on the token stream of
`#(+ 1 (* 2 3)) rest` it yields one SchemeValue covering exactly the matched
span including the closing parenthesis, and the following token is dispatched
next (here a comment token, which surfaces as the next item). -/
theorem consume_depth_tracking (s : Source) :
    ((consume s).1 ++ (consume s).2.toks = s.toks
      ∧ (∀ x ∈ (depthsFrom s.depth (consume s).1).dropLast, s.depth ≤ x)
      ∧ ((consume s).2.toks ≠ [] →
          ∃ dl, (depthsFrom s.depth (consume s).1).getLast? = some dl ∧ dl < s.depth))
    ∧ readGo "nederlands" 20 none
        ⟨[⟨TKind.schemeStart, "#", 1⟩, ⟨TKind.other, "(", 1⟩, ⟨TKind.other, "+", 0⟩,
          ⟨TKind.other, "1", 0⟩, ⟨TKind.other, "(", 1⟩, ⟨TKind.other, "*", 0⟩,
          ⟨TKind.other, "2", 0⟩, ⟨TKind.other, "3", 0⟩, ⟨TKind.other, ")", -1⟩,
          ⟨TKind.other, ")", -2⟩, ⟨TKind.lineComment, "rest", 0⟩], 0⟩
      = ([Item.schemeValue ⟨TKind.schemeStart, "#", 1⟩
            [⟨TKind.other, "(", 1⟩, ⟨TKind.other, "+", 0⟩, ⟨TKind.other, "1", 0⟩,
             ⟨TKind.other, "(", 1⟩, ⟨TKind.other, "*", 0⟩, ⟨TKind.other, "2", 0⟩,
             ⟨TKind.other, "3", 0⟩, ⟨TKind.other, ")", -1⟩, ⟨TKind.other, ")", -2⟩],
          Item.comment ⟨TKind.lineComment, "rest", 0⟩ []], ReadEnd.done) :=
  ⟨consumeGo_spec s.depth s.toks s.depth, by decide⟩

/-- Witness for `consume_depth_tracking`: its conditional part applied where
tokens remain after the drop. -/
theorem consume_depth_tracking_witness :
    ∃ dl, (depthsFrom 0 (consume ⟨[⟨TKind.other, ")", -1⟩, ⟨TKind.other, "x", 0⟩], 0⟩).1).getLast?
        = some dl ∧ dl < 0 :=
  (consume_depth_tracking ⟨[⟨TKind.other, ")", -1⟩, ⟨TKind.other, "x", 0⟩], 0⟩).1.2.2 (by decide)

/-- C5: a resolvable Note token (`c`), followed by one Octave token holding
two raise marks and a Duration token, yields a Note whose pitch has octave
offset `+2` and whose Duration holds exactly that one duration token. -/
theorem read_note_two_octave_marks_duration :
    readGo "nederlands" 9 none ⟨[noteTok "c", octTok upMark2, durTok "4"], 0⟩
      = ([Item.note (noteTok "c") ⟨0, AccVal.num 0, 2, none⟩ (some (octTok upMark2))
            none none (some [durTok "4"])], ReadEnd.done) := by decide

/-- C6 counterexample: after an octave-check mark the pitch loop breaks with
the octave-check token still pending, so duration collection never runs: for
`c` followed by an octave-check token and a Duration token the yielded Note's
Duration is empty and the duration token is silently skipped, contradicting
the claim that the Duration contains it. -/
theorem read_octavecheck_swallows_duration :
    readGo "nederlands" 9 none ⟨[noteTok "c", chkTok ("=" ++ upMark), durTok "4"], 0⟩
      = ([Item.note (noteTok "c") ⟨0, AccVal.num 0, 0, some 1⟩ none none
            (some (chkTok ("=" ++ upMark))) (some [])], ReadEnd.done) := by decide

/-- C6 amended: pitch collection consumes following octave and accidental
marks and at most one octave-check mark, stopping immediately after an
octave-check; duration collection attaches the pending token and following
duration tokens only when that pending token is duration-class.  So a Note
followed by an accidental mark and a Duration token gets that duration token,
while a Note followed by an octave-check mark and a Duration token keeps an
empty Duration (the duration token is skipped at dispatch level and produces
no further item). -/
theorem read_pitch_then_duration_collection :
    readGo "nederlands" 9 none ⟨[noteTok "d", accTok "!", durTok "8"], 0⟩
      = ([Item.note (noteTok "d") ⟨1, AccVal.tok (accTok "!"), 0, none⟩ none
            (some (accTok "!")) none (some [durTok "8"])], ReadEnd.done)
    ∧ readGo "nederlands" 9 none ⟨[noteTok "e", chkTok ("=" ++ downMark), durTok "16"], 0⟩
      = ([Item.note (noteTok "e") ⟨2, AccVal.num 0, 0, some (-1)⟩ none none
            (some (chkTok ("=" ++ downMark))) (some [])], ReadEnd.done) := by decide

/-- C7: for a quoted string run of character tokens followed by the closing
quote, the yielded StringValue's resolved value is the concatenation of the
character tokens, with one leading escape backslash stripped from each
character token that begins with one (the closing token is not part of the
value). -/
theorem stringValue_resolved_value (chars : List Tok)
    (h : ∀ c ∈ chars, c.kind = TKind.character ∧ c.ddepth = 0) :
    readGo "nederlands" 5 none
        ⟨⟨TKind.stringStart, "\"", 1⟩ :: (chars ++ [⟨TKind.stringEnd, "\"", -1⟩]), 0⟩
      = ([Item.stringValue ⟨TKind.stringStart, "\"", 1⟩ (chars ++ [⟨TKind.stringEnd, "\"", -1⟩])
            (String.join (chars.map fun c =>
              if c.text.data.head? = some escChar
              then String.mk (c.text.data.drop 1) else c.text))],
         ReadEnd.done) := by
  have hc : consumeGo ((0:Int) + 1) (chars ++ ⟨TKind.stringEnd, "\"", -1⟩ :: []) ((0:Int) + 1)
      = (chars ++ [⟨TKind.stringEnd, "\"", -1⟩], ⟨[], (0:Int) + 1 + (-1)⟩) :=
    consumeGo_zero_run ((0:Int) + 1) chars ⟨TKind.stringEnd, "\"", -1⟩ [] ((0:Int) + 1)
      le_rfl (fun c hcm => (h c hcm).2) (by norm_num)
  have hmap : (chars.map fun u =>
        if u.kind = TKind.character ∧ u.text.data.head? = some escChar
        then String.mk (u.text.data.drop 1) else u.text)
      = chars.map fun c =>
          if c.text.data.head? = some escChar
          then String.mk (c.text.data.drop 1) else c.text := by
    refine List.map_congr_left (fun c hcm => ?_)
    have hk := (h c hcm).1
    by_cases hs : c.text.data.head? = some escChar
    · rw [if_pos ⟨hk, hs⟩, if_pos hs]
    · rw [if_neg (fun hand => hs hand.2), if_neg hs]
  simp only [readGo, consume, isMusicItem, hc, hmap, List.dropLast_concat]
  simp

/-- Witness for `stringValue_resolved_value`: the token run of `"a\"b"`
resolves to the value `a"b`, the escape marker stripped exactly once. -/
theorem stringValue_resolved_value_witness :
    readGo "nederlands" 5 none
        ⟨⟨TKind.stringStart, "\"", 1⟩ ::
          ([⟨TKind.character, "a", 0⟩, ⟨TKind.character, "\\\"", 0⟩, ⟨TKind.character, "b", 0⟩]
            ++ [⟨TKind.stringEnd, "\"", -1⟩]), 0⟩
      = ([Item.stringValue ⟨TKind.stringStart, "\"", 1⟩
            ([⟨TKind.character, "a", 0⟩, ⟨TKind.character, "\\\"", 0⟩, ⟨TKind.character, "b", 0⟩]
              ++ [⟨TKind.stringEnd, "\"", -1⟩])
            (String.join
              (([⟨TKind.character, "a", 0⟩, ⟨TKind.character, "\\\"", 0⟩,
                ⟨TKind.character, "b", 0⟩] : List Tok).map
                fun c => if c.text.data.head? = some escChar
                         then String.mk (c.text.data.drop 1) else c.text))],
         ReadEnd.done)
    ∧ String.join
        (([⟨TKind.character, "a", 0⟩, ⟨TKind.character, "\\\"", 0⟩,
          ⟨TKind.character, "b", 0⟩] : List Tok).map
          fun c => if c.text.data.head? = some escChar
                   then String.mk (c.text.data.drop 1) else c.text) = "a\"b" :=
  ⟨stringValue_resolved_value
    [⟨TKind.character, "a", 0⟩, ⟨TKind.character, "\\\"", 0⟩, ⟨TKind.character, "b", 0⟩]
    (by decide), by decide⟩

/-- C8 counterexample: a Note item does not retain every non-whitespace token
of the span it covers.  For `c` followed by two separate Octave tokens (a
raise mark, then a lower mark) and a duration, the second octave token
overwrites the first in `octave_token`: the raise-mark token — which is not
whitespace — appears in none of the item's recorded token fields, so no
interleaving of whitespace can reconstruct the covered span. -/
theorem note_elides_repeated_octave_token :
    readGo "nederlands" 9 none ⟨[noteTok "c", octTok upMark, octTok downMark, durTok "4"], 0⟩
      = ([Item.note (noteTok "c") ⟨0, AccVal.num 0, -1, none⟩ (some (octTok downMark)) none none
            (some [durTok "4"])], ReadEnd.done)
    ∧ octTok upMark ∉ (Item.note (noteTok "c") ⟨0, AccVal.num 0, -1, none⟩ (some (octTok downMark))
          none none (some [durTok "4"])).recordedToks
    ∧ (octTok upMark).kind ≠ TKind.space := by decide

/-- C8 amended: items built by depth-tracked consumption retain their full
consumed run verbatim.  A block comment's `tokens` is exactly the consumed
span including the closing token — nothing at all, not even whitespace, is
elided from it — so concatenating `token :: tokens` reconstructs the span;
Durable items, by contrast, record only their primary token, the last token
of each pitch-modifier class and the duration tokens (see the
counterexample). -/
theorem comment_run_retained (run : List Tok) (h : ∀ c ∈ run, c.ddepth = 0) :
    readGo "nederlands" 5 none
        ⟨⟨TKind.blockCommentStart, "%\x7b", 1⟩ :: (run ++ [⟨TKind.other, "%\x7d", -1⟩]), 0⟩
      = ([Item.comment ⟨TKind.blockCommentStart, "%\x7b", 1⟩ (run ++ [⟨TKind.other, "%\x7d", -1⟩])],
         ReadEnd.done)
    ∧ (Item.comment ⟨TKind.blockCommentStart, "%\x7b", 1⟩
          (run ++ [⟨TKind.other, "%\x7d", -1⟩])).recordedToks
        = ⟨TKind.blockCommentStart, "%\x7b", 1⟩ :: (run ++ [⟨TKind.other, "%\x7d", -1⟩]) := by
  have hc : consumeGo ((0:Int) + 1) (run ++ ⟨TKind.other, "%\x7d", -1⟩ :: []) ((0:Int) + 1)
      = (run ++ [⟨TKind.other, "%\x7d", -1⟩], ⟨[], (0:Int) + 1 + (-1)⟩) :=
    consumeGo_zero_run ((0:Int) + 1) run ⟨TKind.other, "%\x7d", -1⟩ [] ((0:Int) + 1)
      le_rfl h (by norm_num)
  constructor
  · simp only [readGo, consume, isMusicItem, hc]
    simp
  · rfl

/-- Witness for `comment_run_retained`: a block comment containing whitespace
and a word keeps both tokens verbatim. -/
theorem comment_run_retained_witness :
    readGo "nederlands" 5 none
        ⟨⟨TKind.blockCommentStart, "%\x7b", 1⟩ ::
          ([⟨TKind.space, " ", 0⟩, ⟨TKind.other, "hello", 0⟩] ++ [⟨TKind.other, "%\x7d", -1⟩]), 0⟩
      = ([Item.comment ⟨TKind.blockCommentStart, "%\x7b", 1⟩
            ([⟨TKind.space, " ", 0⟩, ⟨TKind.other, "hello", 0⟩] ++ [⟨TKind.other, "%\x7d", -1⟩])],
         ReadEnd.done)
    ∧ (Item.comment ⟨TKind.blockCommentStart, "%\x7b", 1⟩
          ([⟨TKind.space, " ", 0⟩, ⟨TKind.other, "hello", 0⟩]
            ++ [⟨TKind.other, "%\x7d", -1⟩])).recordedToks
        = ⟨TKind.blockCommentStart, "%\x7b", 1⟩ ::
            ([⟨TKind.space, " ", 0⟩, ⟨TKind.other, "hello", 0⟩] ++ [⟨TKind.other, "%\x7d", -1⟩]) :=
  comment_run_retained [⟨TKind.space, " ", 0⟩, ⟨TKind.other, "hello", 0⟩] (by decide)

/-- Every item `readGo` ever yields has a well-formed duration field and is
one of the seven leaf kinds; shared backbone of the two invariants below,
proved by induction on the fuel. -/
theorem read_items_aux (lang : String) :
    ∀ (fuel : Nat) (pending : Option Tok) (s : Source),
      ∀ i ∈ (readGo lang fuel pending s).1, DurationOk i ∧ isReadKind i = true := by
  intro fuel
  induction fuel with
  | zero => intro pending s i hi; simp [readGo] at hi
  | succ n ih =>
    intro pending s i hi
    match pending with
    | none =>
      match s with
      | ⟨[], d⟩ => simp [readGo] at hi
      | ⟨t :: ts, d⟩ =>
        rw [show readGo lang (n + 1) none ⟨t :: ts, d⟩
              = readGo lang n (some t) ⟨ts, d + t.ddepth⟩ from rfl] at hi
        exact ih _ _ i hi
    | some t =>
      simp only [readGo] at hi
      by_cases hm : isMusicItem t.kind = true
      · rw [if_pos hm] at hi
        rcases hstep : musicItemStep lang t s with _ | ⟨item, pending2, s2⟩
        · rw [hstep] at hi; simp at hi
        · rw [hstep] at hi
          simp only [List.mem_cons] at hi
          rcases hi with rfl | hi
          · exact musicItemStep_item lang t s _ _ _ hstep
          · exact ih _ _ i hi
      · rw [if_neg hm] at hi
        by_cases h1 : t.kind = TKind.schemeStart
        · rw [if_pos h1] at hi
          simp only [List.mem_cons] at hi
          rcases hi with rfl | hi
          · exact ⟨trivial, rfl⟩
          · exact ih _ _ i hi
        · rw [if_neg h1] at hi
          by_cases h2 : t.kind = TKind.blockCommentStart
          · rw [if_pos h2] at hi
            simp only [List.mem_cons] at hi
            rcases hi with rfl | hi
            · exact ⟨trivial, rfl⟩
            · exact ih _ _ i hi
          · rw [if_neg h2] at hi
            by_cases h3 : t.kind = TKind.lineComment
            · rw [if_pos h3] at hi
              simp only [List.mem_cons] at hi
              rcases hi with rfl | hi
              · exact ⟨trivial, rfl⟩
              · exact ih _ _ i hi
            · rw [if_neg h3] at hi
              by_cases h4 : t.kind = TKind.stringStart
              · rw [if_pos h4] at hi
                simp only [List.mem_cons] at hi
                rcases hi with rfl | hi
                · exact ⟨trivial, rfl⟩
                · exact ih _ _ i hi
              · rw [if_neg h4] at hi
                exact ih _ _ i hi

/-- C9: every Durable item (Note, Rest, Skip, Q) yielded by `read` — from any
fuel, pending token and source, in any language — carries a present (never
`None`) duration whose token list holds only duration-class tokens, never
whitespace. -/
theorem read_durable_has_duration (lang : String) (fuel : Nat) (pending : Option Tok)
    (s : Source) : ∀ i ∈ (readGo lang fuel pending s).1, DurationOk i :=
  fun i hi => (read_items_aux lang fuel pending s i hi).1

/-- Witness for `read_durable_has_duration`: a lone rest token yields a Rest
with a present, empty duration. -/
theorem read_durable_has_duration_witness :
    DurationOk (Item.rest ⟨TKind.rest, "r", 0⟩ (some [])) :=
  read_durable_has_duration "nederlands" 9 none ⟨[⟨TKind.rest, "r", 0⟩], 0⟩
    (Item.rest ⟨TKind.rest, "r", 0⟩ (some [])) (by decide)

/-- C10: `read` only ever yields Note, Rest, Skip, Q, SchemeValue, Comment
and StringValue items; never a bare Token, Chord, Music, Container or
Duration item, whatever the input token stream. -/
theorem read_yields_leaf_kinds_only (lang : String) (fuel : Nat) (pending : Option Tok)
    (s : Source) : ∀ i ∈ (readGo lang fuel pending s).1, isReadKind i = true :=
  fun i hi => (read_items_aux lang fuel pending s i hi).2

/-- Witness for `read_yields_leaf_kinds_only` at a line-comment token. -/
theorem read_yields_leaf_kinds_only_witness :
    isReadKind (Item.comment ⟨TKind.lineComment, "% hi", 0⟩ []) = true :=
  read_yields_leaf_kinds_only "nederlands" 9 none ⟨[⟨TKind.lineComment, "% hi", 0⟩], 0⟩
    (Item.comment ⟨TKind.lineComment, "% hi", 0⟩ []) (by decide)
